import Mathlib

/-!
Verification of the kafka-filter-pypi entrypoint against its specification.

The development shallowly embeds the core of `entrypoint.py`:

* `_parse_requires`'s interval-compression loop over `(operator, version)`
  specifier pairs (`stepPair`, `addRange`, `compress`);
* the release extractor `_extract` (`minTimestamp`, `extract`);
* the deduplication store `_exists` / `_store` and the `consume` loop
  (`storeExists`, `storeAdd`, `processEntries`).

Version values are the raw version strings: `pkg_resources.Requirement.specs`
yields `(operator, version-string)` pairs, and `sorted(specs, key=lambda x:
x[1])` therefore sorts by Python's lexicographic string order.  Python string
comparison is code-point lexicographic, embedded here as `charsLt` on the
character list of the string; Python's `sorted` is a stable sort, embedded as
`List.insertionSort` (a stable sort) with the relation `specLe` below.
-/

/-- Lexicographic code-point comparison of character lists, the order Python
uses to compare strings.  Executable counterpart of `List.Lex (· < ·)`. -/
def charsLt : List Char → List Char → Bool
  | _, [] => false
  | [], _ :: _ => true
  | a :: as, b :: bs => if a < b then true else if b < a then false else charsLt as bs

/-- Python's `<` on strings: lexicographic comparison of the code points. -/
def pyLt (a b : String) : Bool := charsLt a.data b.data

theorem charsLt_iff (as bs : List Char) : charsLt as bs = true ↔ as < bs := by
  induction as generalizing bs with
  | nil =>
    cases bs with
    | nil =>
      refine iff_of_false (fun h => Bool.noConfusion h) ?_
      intro h
      cases h
    | cons b bs => exact iff_of_true rfl (List.nil_lt_cons b bs)
  | cons a as ih =>
    cases bs with
    | nil =>
      refine iff_of_false (fun h => Bool.noConfusion h) ?_
      intro h
      cases h
    | cons b bs =>
      rcases lt_trichotomy a b with hab | hEq | hba
      · refine iff_of_true ?_ (List.Lex.rel hab)
        simp only [charsLt]
        rw [if_pos hab]
      · subst hEq
        have hstep : charsLt (a :: as) (a :: bs) = charsLt as bs := by
          simp only [charsLt]
          rw [if_neg (lt_irrefl a), if_neg (lt_irrefl a)]
        rw [hstep, ih bs]
        constructor
        · exact fun h => List.Lex.cons h
        · intro h
          cases h with
          | rel h' => exact absurd h' (lt_irrefl _)
          | cons h' => exact h'
      · have hval : charsLt (a :: as) (b :: bs) = false := by
          simp only [charsLt]
          rw [if_neg (asymm hba), if_pos hba]
        refine iff_of_false (by rw [hval]; exact fun h => Bool.noConfusion h) ?_
        intro h
        cases h with
        | rel h' => exact absurd h' (asymm hba)
        | cons h' => exact absurd hba (lt_irrefl _)

theorem pyLt_iff (a b : String) : pyLt a b = true ↔ a < b := by
  rw [pyLt, charsLt_iff, String.lt_iff_toList_lt]
  exact Iff.rfl

theorem pyLt_eq_false_iff (a b : String) : pyLt a b = false ↔ b ≤ a := by
  rw [← not_lt, ← pyLt_iff]
  cases h : pyLt a b <;> simp [h]

/-- One specifier pair `(operator, version)` as produced by
`pkg_resources.Requirement.specs`. -/
abbrev VersionSpec := String × String

/-- The sort relation used by `sorted(specs, key=lambda x: x[1])`: compare the
version strings (second components) with Python's string order. -/
def specLe (a b : VersionSpec) : Prop := a.2 ≤ b.2

instance : DecidableRel specLe := fun a b =>
  decidable_of_iff (pyLt b.2 a.2 = false) (pyLt_eq_false_iff b.2 a.2)

instance : IsTotal VersionSpec specLe := ⟨fun a b => le_total a.2 b.2⟩

instance : IsTrans VersionSpec specLe := ⟨fun _ _ _ h1 h2 => le_trans h1 h2⟩

/-- Strict version of `specLe`, used to state determinism for inputs with
pairwise distinct version strings. -/
def specLt (a b : VersionSpec) : Prop := a.2 < b.2

instance : IsAntisymm VersionSpec specLt :=
  ⟨fun _ _ h1 h2 => absurd h2 (lt_asymm h1)⟩

/-- One pending bound of the compression loop: the version string together
with its inclusive flag (`(val, True)` for `>=`/`<=`, `(val, False)` for
`>`/`<`). -/
abbrev Bound := String × Bool

/-- Embedding of the nested `add_range(begin, end)` of `_parse_requires`:
rendered as the list of appended constraint strings (empty when both slots
are `None`, a single interval expression otherwise). -/
def addRange (bg en : Option Bound) : List String :=
  match bg, en with
  | some b, some e =>
    if b.2 && e.2 then ["[" ++ b.1 ++ ".." ++ e.1 ++ "]"]
    else if b.2 then ["[" ++ b.1 ++ ".." ++ e.1 ++ ")"]
    else if e.2 then ["(" ++ b.1 ++ ".." ++ e.1 ++ "]"]
    else ["(" ++ b.1 ++ ".." ++ e.1 ++ ")"]
  | some b, none =>
    if b.2 then ["[" ++ b.1 ++ "..]"] else ["(" ++ b.1 ++ "..]"]
  | none, some e =>
    if e.2 then ["[.." ++ e.1 ++ "]"] else ["[.." ++ e.1 ++ ")"]
  | none, none => []

/-- State of the compression loop of `_parse_requires`: the `constraints`
accumulator and the two pending-bound slots `begin` and `end` (named `bg` and
`en`, since `end` is reserved in Lean). -/
structure CompressState where
  constraints : List String
  bg : Option Bound
  en : Option Bound
deriving DecidableEq, Repr

/-- One iteration of `for key, val in sorted(specs, key=lambda x: x[1])` in
`_parse_requires`.  Operators other than the five handled ones fall through
every branch and leave the state unchanged, exactly as in the source. -/
def stepPair (st : CompressState) (p : VersionSpec) : CompressState :=
  let key := p.1
  let val := p.2
  if key = "==" then
    let st :=
      if st.bg.isSome && st.en.isSome then
        { constraints := st.constraints ++ addRange st.bg st.en, bg := none, en := none }
      else st
    if st.bg.isNone then { st with constraints := st.constraints ++ ["[" ++ val ++ "]"] }
    else st
  else if key = ">" then
    let st :=
      if st.en.isSome then
        { constraints := st.constraints ++ addRange st.bg st.en, bg := none, en := none }
      else st
    if st.bg.isNone then { st with bg := some (val, false) } else st
  else if key = ">=" then
    let st :=
      if st.en.isSome then
        { constraints := st.constraints ++ addRange st.bg st.en, bg := none, en := none }
      else st
    if st.bg.isNone then { st with bg := some (val, true) } else st
  else if key = "<" then
    { st with en := some (val, false) }
  else if key = "<=" then
    { st with en := some (val, true) }
  else st

/-- The loop of `_parse_requires` over the sorted specifier pairs, before the
trailing `add_range(begin, end)` call. -/
def compressLoop (specs : List VersionSpec) : CompressState :=
  (List.insertionSort specLe specs).foldl stepPair ⟨[], none, none⟩

/-- The constraint-compression of `_parse_requires` for one requirement: sort
the pairs by version string, run the loop, and flush whatever bounds remain
pending. -/
def compress (specs : List VersionSpec) : List String :=
  let st := compressLoop specs
  st.constraints ++ addRange st.bg st.en

/-- A parsed dependency constraint as appended to `parsed` by
`_parse_requires`. -/
structure DependencyConstraint where
  forge : String
  product : String
  constraints : List String
deriving DecidableEq, Repr

/-- Embedding of `_parse_requires` on requirements already split by
`pkg_resources.Requirement.parse` into `(req.name, req.specs)`; the splitting
itself lives in the external library, so its successful results are the
input here. -/
def parseRequires (reqs : List (String × List VersionSpec)) : List DependencyConstraint :=
  reqs.map fun r => ⟨"PyPI", r.1, compress r.2⟩

/-- The five operators the compression loop of `_parse_requires` handles. -/
def supportedOps : List String := ["==", ">", ">=", "<", "<="]

example : compress [("==", "1.0.0")] = ["[1.0.0]"] := by decide
example : compress [(">=", "1.0.0"), ("<=", "2.0.0")] = ["[1.0.0..2.0.0]"] := by decide
example : compress [(">", "1.0.0"), ("<=", "2.0.0")] = ["(1.0.0..2.0.0]"] := by decide
example : compress [("<", "3.0.0")] = ["[..3.0.0)"] := by decide
example : compress [(">=", "1.0.0")] = ["[1.0.0..]"] := by decide
example : compress [("==", "1.0.0"), ("==", "2.0.0")] = ["[1.0.0]", "[2.0.0]"] := by decide
example : compress [("==", "2.0.0"), ("==", "10.0.0")] = ["[10.0.0]", "[2.0.0]"] := by decide
example : compress [(">=", "1.0.0"), ("==", "2.0.0")] = ["[1.0.0..]"] := by decide
example : compress [(">=", "1.0.0"), ("<=", "1.0.0")] = ["[1.0.0..1.0.0]"] := by decide
example : compress [("<=", "1.0.0"), (">=", "1.0.0")] = ["[..1.0.0]", "[1.0.0..]"] := by decide
example : compress [("!=", "1.0.0")] = [] := by decide

/-- C4: in one unflushed segment, a `>`/`>=` seen while `begin` is set and no
`end` is pending is ignored, while `<`/`<=` always overwrite the pending end
and touch nothing else. -/
theorem c4_first_lower_last_upper :
    (∀ (st : CompressState) (v : String), st.bg.isSome → st.en = none →
        stepPair st (">", v) = st ∧ stepPair st (">=", v) = st) ∧
    (∀ (st : CompressState) (v : String),
        stepPair st ("<", v) = { st with en := some (v, false) } ∧
        stepPair st ("<=", v) = { st with en := some (v, true) }) := by
  constructor
  · intro st v h1 h2
    rcases st with ⟨cs, bg, en⟩
    simp only at h2
    subst h2
    rcases bg with _ | b
    · simp at h1
    · constructor <;> simp [stepPair]
  · intro st v
    rcases st with ⟨cs, bg, en⟩
    constructor <;> simp [stepPair]

theorem c4_witness :
    stepPair ⟨[], some ("1.0.0", true), none⟩ (">", "2.0.0") = ⟨[], some ("1.0.0", true), none⟩ ∧
    stepPair ⟨[], some ("1.0.0", true), none⟩ (">=", "2.0.0") = ⟨[], some ("1.0.0", true), none⟩ ∧
    stepPair ⟨[], some ("1.0.0", false), some ("3.0.0", true)⟩ ("<", "2.0.0") =
      ⟨[], some ("1.0.0", false), some ("2.0.0", false)⟩ ∧
    stepPair ⟨[], some ("1.0.0", false), some ("3.0.0", true)⟩ ("<=", "2.0.0") =
      ⟨[], some ("1.0.0", false), some ("2.0.0", true)⟩ := by
  have h1 := c4_first_lower_last_upper.1 ⟨[], some ("1.0.0", true), none⟩ "2.0.0"
    (by decide) rfl
  have h2 := c4_first_lower_last_upper.2 ⟨[], some ("1.0.0", false), some ("3.0.0", true)⟩ "2.0.0"
  exact ⟨h1.1, h1.2, h2.1, h2.2⟩

/-- C5: every flush appends exactly one interval expression, rendered from
the pending bounds as dictated by the inclusive flags; an upper-unbounded
range always ends in `]`; two empty slots render nothing; and `compress` ends
by flushing the final pending bounds. -/
theorem c5_flush_rendering :
    (∀ (a b : String) (ia ib : Bool),
        addRange (some (a, ia)) (some (b, ib)) =
          [(if ia then "[" else "(") ++ a ++ ".." ++ b ++ (if ib then "]" else ")")]) ∧
    (∀ (a : String) (ia : Bool),
        addRange (some (a, ia)) none = [(if ia then "[" else "(") ++ a ++ "..]"]) ∧
    (∀ (b : String) (ib : Bool),
        addRange none (some (b, ib)) = ["[.." ++ b ++ (if ib then "]" else ")")]) ∧
    addRange none none = [] ∧
    (∀ bg en, (addRange bg en).length ≤ 1) ∧
    (∀ bg en, addRange bg en = [] ↔ bg = none ∧ en = none) ∧
    (∀ specs, compress specs =
        (compressLoop specs).constraints ++
          addRange (compressLoop specs).bg (compressLoop specs).en) := by
  refine ⟨?_, ?_, ?_, rfl, ?_, ?_, fun specs => rfl⟩
  · intro a b ia ib
    cases ia <;> cases ib <;> simp [addRange]
  · intro a ia
    cases ia <;> simp [addRange]
  · intro b ib
    cases ib <;> simp [addRange]
  · intro bg en
    rcases bg with _ | ⟨a, ia⟩ <;> rcases en with _ | ⟨b, ib⟩
    · simp [addRange]
    · cases ib <;> simp [addRange]
    · cases ia <;> simp [addRange]
    · cases ia <;> cases ib <;> simp [addRange]
  · intro bg en
    rcases bg with _ | ⟨a, ia⟩ <;> rcases en with _ | ⟨b, ib⟩
    · simp [addRange]
    · cases ib <;> simp [addRange]
    · cases ia <;> simp [addRange]
    · cases ia <;> cases ib <;> simp [addRange]

/-- C2, counterexample to the claim as stated: the `==` pair at `2.0.0` is
encountered while `begin` is set and `end` is empty, so it produces no
standalone point expression at all — the output is only the final flush of
the pending lower bound. -/
theorem c2_counterexample :
    compress [(">=", "1.0.0"), ("==", "2.0.0")] = ["[1.0.0..]"] ∧
    "[2.0.0]" ∉ compress [(">=", "1.0.0"), ("==", "2.0.0")] := by
  constructor
  · decide
  · decide

/-- C2, amended: an `==` pair emits its standalone point `[version]` exactly
when `begin` is empty at that moment; when both `begin` and `end` are pending
it first flushes them (and then, `begin` being cleared, emits the point); an
`==` met while `begin` is set and `end` is empty is silently dropped; `==`
never itself becomes a `begin`/`end` bound; and two `==` pairs at different
versions with no other pairs yield the two points in ascending
(lexicographic) version order. -/
theorem c2_point_emission :
    (∀ a b : String, a < b →
        compress [("==", a), ("==", b)] = ["[" ++ a ++ "]", "[" ++ b ++ "]"]) ∧
    (∀ (st : CompressState) (v : String), st.bg = none →
        stepPair st ("==", v) =
          { st with constraints := st.constraints ++ ["[" ++ v ++ "]"] }) ∧
    (∀ (st : CompressState) (v : String), st.bg.isSome → st.en.isSome →
        stepPair st ("==", v) =
          ⟨st.constraints ++ addRange st.bg st.en ++ ["[" ++ v ++ "]"], none, none⟩) ∧
    (∀ (st : CompressState) (v : String), st.bg.isSome → st.en = none →
        stepPair st ("==", v) = st) ∧
    (∀ (st : CompressState) (v : String),
        ((stepPair st ("==", v)).bg = st.bg ∨ (stepPair st ("==", v)).bg = none) ∧
        ((stepPair st ("==", v)).en = st.en ∨ (stepPair st ("==", v)).en = none)) := by
  refine ⟨?_, ?_, ?_, ?_, ?_⟩
  · intro a b hab
    have hle : specLe ("==", a) ("==", b) := le_of_lt hab
    simp [compress, compressLoop, List.insertionSort, List.orderedInsert, if_pos hle,
      stepPair, addRange]
  · intro st v h
    rcases st with ⟨cs, bg, en⟩
    simp only at h
    subst h
    simp [stepPair]
  · intro st v h1 h2
    rcases st with ⟨cs, bg, en⟩
    rcases bg with _ | b
    · simp at h1
    · rcases en with _ | e
      · simp at h2
      · simp [stepPair]
  · intro st v h1 h2
    rcases st with ⟨cs, bg, en⟩
    simp only at h2
    subst h2
    rcases bg with _ | b
    · simp at h1
    · simp [stepPair]
  · intro st v
    rcases st with ⟨cs, bg, en⟩
    rcases bg with _ | b <;> rcases en with _ | e <;> simp [stepPair]

theorem c2_witness :
    compress [("==", "1.0.0"), ("==", "2.0.0")] = ["[1.0.0]", "[2.0.0]"] ∧
    stepPair ⟨[], none, some ("9", true)⟩ ("==", "3.0.0") =
      ⟨["[3.0.0]"], none, some ("9", true)⟩ ∧
    stepPair ⟨[], some ("1", true), some ("2", false)⟩ ("==", "3.0.0") =
      ⟨["[1..2)", "[3.0.0]"], none, none⟩ ∧
    stepPair ⟨[], some ("1", true), none⟩ ("==", "3.0.0") = ⟨[], some ("1", true), none⟩ := by
  refine ⟨c2_point_emission.1 "1.0.0" "2.0.0" ((pyLt_iff "1.0.0" "2.0.0").mp (by decide)),
    ?_, ?_, ?_⟩
  · have h := c2_point_emission.2.1 ⟨[], none, some ("9", true)⟩ "3.0.0" rfl
    simpa using h
  · have h := c2_point_emission.2.2.1 ⟨[], some ("1", true), some ("2", false)⟩ "3.0.0"
      (by decide) (by decide)
    simpa [addRange] using h
  · exact c2_point_emission.2.2.2.1 ⟨[], some ("1", true), none⟩ "3.0.0" (by decide) rfl

/-- C8, counterexample to the claim as stated: a requirement whose specifier
uses the unsupported operator `!=` does not fail; `_parse_requires` returns a
`DependencyConstraint` for it (with the pair contributing nothing). -/
theorem c8_counterexample :
    parseRequires [("foo", [("!=", "1.0.0")])] =
      [{ forge := "PyPI", product := "foo", constraints := [] }] := by
  decide

/-- C8, amended: specifier pairs with operators outside the five supported
ones are accepted and silently ignored by the compression — for any
requirement name and version, a lone `!=` or `~=` specifier yields a
`DependencyConstraint` with an empty constraint list instead of a failure
(failure on syntactically undecomposable raw strings is delegated to the
external `pkg_resources` parsing). -/
theorem c8_unsupported_ops_ignored (name v : String) :
    parseRequires [(name, [("!=", v)])] =
      [{ forge := "PyPI", product := name, constraints := [] }] ∧
    parseRequires [(name, [("~=", v)])] =
      [{ forge := "PyPI", product := name, constraints := [] }] := by
  constructor <;>
    simp [parseRequires, compress, compressLoop, List.insertionSort, List.orderedInsert,
      stepPair, addRange]

theorem stepPair_unsupported (st : CompressState) (p : VersionSpec)
    (h : decide (p.1 ∈ supportedOps) = false) : stepPair st p = st := by
  have hmem : p.1 ∉ supportedOps := of_decide_eq_false h
  simp only [supportedOps, List.mem_cons, List.mem_singleton, not_or] at hmem
  obtain ⟨h1, h2, h3, h4, h5⟩ := hmem
  have h5' : p.1 ≠ "<=" := by simpa using h5
  simp [stepPair, h1, h2, h3, h4, h5']

theorem foldl_eq_foldl_filter {α β : Type} (f : α → β → α) (p : β → Bool)
    (h : ∀ st x, p x = false → f st x = st) :
    ∀ (l : List β) (init : α), l.foldl f init = (l.filter p).foldl f init := by
  intro l
  induction l with
  | nil => intro init; rfl
  | cons x xs ih =>
    intro init
    cases hx : p x
    · rw [List.foldl_cons, h init x hx, List.filter_cons_of_neg (by simp [hx]), ih init]
    · rw [List.foldl_cons, List.filter_cons_of_pos hx, List.foldl_cons, ih (f init x)]

theorem orderedInsert_eq_cons {α : Type} (r : α → α → Prop) [DecidableRel r] (a : α)
    (l : List α) (h : ∀ b ∈ l, r a b) : List.orderedInsert r a l = a :: l := by
  cases l with
  | nil => rfl
  | cons b t =>
    simp only [List.orderedInsert]
    rw [if_pos (h b (List.mem_cons_self b t))]

theorem filter_orderedInsert {α : Type} (r : α → α → Prop) [DecidableRel r] [IsTrans α r]
    (p : α → Bool) (a : α) :
    ∀ l : List α, l.Sorted r →
      (List.orderedInsert r a l).filter p =
        if p a then List.orderedInsert r a (l.filter p) else l.filter p := by
  intro l
  induction l with
  | nil =>
    intro _
    cases hpa : p a <;> simp [List.orderedInsert, hpa]
  | cons b t ih =>
    intro hs
    have hst : t.Sorted r := hs.of_cons
    by_cases hab : r a b
    · simp only [List.orderedInsert]
      rw [if_pos hab]
      cases hpa : p a
      · rw [List.filter_cons_of_neg (by simp [hpa]), if_neg Bool.false_ne_true]
      · have hall : ∀ c ∈ (b :: t).filter p, r a c := by
          intro c hc
          rcases List.mem_cons.mp (List.mem_of_mem_filter hc) with hcb | hct
          · exact hcb ▸ hab
          · exact Trans.trans hab (List.rel_of_sorted_cons hs c hct)
        rw [List.filter_cons_of_pos hpa, orderedInsert_eq_cons r a _ hall,
          if_pos (Eq.refl true)]
    · simp only [List.orderedInsert]
      rw [if_neg hab]
      cases hpb : p b
      · rw [List.filter_cons_of_neg (by simp [hpb]), List.filter_cons_of_neg (by simp [hpb]),
          ih hst]
      · rw [List.filter_cons_of_pos hpb, List.filter_cons_of_pos hpb, ih hst]
        cases hpa : p a
        · rw [if_neg Bool.false_ne_true, if_neg Bool.false_ne_true]
        · rw [if_pos (Eq.refl true), if_pos (Eq.refl true)]
          simp only [List.orderedInsert]
          rw [if_neg hab]

theorem insertionSort_filter {α : Type} (r : α → α → Prop) [DecidableRel r]
    [IsTotal α r] [IsTrans α r] (p : α → Bool) :
    ∀ l : List α, List.insertionSort r (l.filter p) = (List.insertionSort r l).filter p := by
  intro l
  induction l with
  | nil => rfl
  | cons x xs ih =>
    have hsorted : (List.insertionSort r xs).Sorted r := List.sorted_insertionSort r xs
    cases hpx : p x
    · rw [List.filter_cons_of_neg (by simp [hpx])]
      simp only [List.insertionSort]
      rw [filter_orderedInsert r p x _ hsorted, if_neg (by simp [hpx]), ih]
    · rw [List.filter_cons_of_pos hpx]
      simp only [List.insertionSort]
      rw [filter_orderedInsert r p x _ hsorted, if_pos hpx, ih]

/-- C10: specifier pairs whose operator is not one of the five supported ones
contribute nothing — `compress` gives the same output as on the sublist
restricted to the supported operators. -/
theorem c10_unsupported_filtered (specs : List VersionSpec) :
    compress specs = compress (specs.filter fun p => decide (p.1 ∈ supportedOps)) := by
  have hloop : compressLoop specs =
      compressLoop (specs.filter fun p => decide (p.1 ∈ supportedOps)) := by
    unfold compressLoop
    rw [foldl_eq_foldl_filter stepPair (fun p => decide (p.1 ∈ supportedOps))
      stepPair_unsupported,
      ← insertionSort_filter specLe (fun p => decide (p.1 ∈ supportedOps)) specs]
  unfold compress
  rw [hloop]

/-- C3, counterexample to the claim as stated: the same multiset of pairs in
two enumeration orders gives two different outputs, because the sort is
stable and the loop treats a `<=` met before a `>=` at the same version as a
flush boundary. -/
theorem c3_counterexample :
    List.Perm [((">=" : String), ("1.0.0" : String)), ("<=", "1.0.0")]
      [("<=", "1.0.0"), (">=", "1.0.0")] ∧
    compress [(">=", "1.0.0"), ("<=", "1.0.0")] = ["[1.0.0..1.0.0]"] ∧
    compress [("<=", "1.0.0"), (">=", "1.0.0")] = ["[..1.0.0]", "[1.0.0..]"] ∧
    compress [(">=", "1.0.0"), ("<=", "1.0.0")] ≠
      compress [("<=", "1.0.0"), (">=", "1.0.0")] :=
  ⟨List.Perm.swap _ _ _, by decide, by decide, by decide⟩

theorem sorted_specLt_of_sorted_nodup (s : List VersionSpec)
    (hs : s.Sorted specLe) (hnd : (s.map Prod.snd).Nodup) : s.Sorted specLt := by
  have hpw : s.Pairwise fun a b : VersionSpec => a.2 ≠ b.2 := by
    rw [List.Nodup, List.pairwise_map] at hnd
    exact hnd
  exact (hs.and hpw).imp fun h => lt_of_le_of_ne h.1 h.2

theorem insertionSort_eq_of_perm_distinct (l₁ l₂ : List VersionSpec)
    (hperm : l₁.Perm l₂) (hnd : (l₁.map Prod.snd).Nodup) :
    List.insertionSort specLe l₁ = List.insertionSort specLe l₂ := by
  have hp : (List.insertionSort specLe l₁).Perm (List.insertionSort specLe l₂) :=
    (List.perm_insertionSort specLe l₁).trans
      (hperm.trans (List.perm_insertionSort specLe l₂).symm)
  have hnd₁ : ((List.insertionSort specLe l₁).map Prod.snd).Nodup :=
    (((List.perm_insertionSort specLe l₁).map Prod.snd).symm).nodup hnd
  have hnd₂ : ((List.insertionSort specLe l₂).map Prod.snd).Nodup :=
    (((List.perm_insertionSort specLe l₂).map Prod.snd).symm).nodup
      ((hperm.map Prod.snd).nodup hnd)
  exact List.eq_of_perm_of_sorted hp
    (sorted_specLt_of_sorted_nodup _ (List.sorted_insertionSort specLe l₁) hnd₁)
    (sorted_specLt_of_sorted_nodup _ (List.sorted_insertionSort specLe l₂) hnd₂)

/-- C3, amended: `compress` is a deterministic function of the input list,
and two enumeration orders of the same multiset give the same output whenever
the version strings are pairwise distinct; pairs at an equal version are
processed in encounter order (the sort is stable), so their relative order
can change the output. -/
theorem c3_deterministic_on_distinct_versions (l₁ l₂ : List VersionSpec)
    (hperm : l₁.Perm l₂) (hnd : (l₁.map Prod.snd).Nodup) :
    compress l₁ = compress l₂ := by
  unfold compress compressLoop
  rw [insertionSort_eq_of_perm_distinct l₁ l₂ hperm hnd]

theorem c3_witness :
    compress [(("==" : String), ("1.0.0" : String)), (">", "2.0.0")] =
      compress [((">" : String), ("2.0.0" : String)), ("==", "1.0.0")] :=
  c3_deterministic_on_distinct_versions
    [("==", "1.0.0"), (">", "2.0.0")] [(">", "2.0.0"), ("==", "1.0.0")]
    (List.Perm.swap _ _ _) (by decide)

/-- Ghost instrumentation of the compression loop: each append to the
`constraints` list is either a standalone point (the `==` branch) or a flush
of the pending bounds (`add_range`). -/
inductive Emission where
  | point (v : String)
  | range (bg en : Option Bound)
deriving DecidableEq, Repr

/-- The constraint strings one emission contributes. -/
def render : Emission → List String
  | .point v => ["[" ++ v ++ "]"]
  | .range bg en => addRange bg en

/-- The constraint strings a list of emissions contributes, in order. -/
def renderAll (es : List Emission) : List String := (es.map render).flatten

@[simp]
theorem renderAll_nil : renderAll [] = [] := rfl

@[simp]
theorem renderAll_append (es es' : List Emission) :
    renderAll (es ++ es') = renderAll es ++ renderAll es' := by
  simp [renderAll]

@[simp]
theorem renderAll_singleton (e : Emission) : renderAll [e] = render e := by
  simp [renderAll]

/-- The lower-bound version of an emission, where defined: the point's own
version, or the version of the `begin` bound of a flushed range. -/
def lowerBound : Emission → Option String
  | .point v => some v
  | .range bg _ => bg.map Prod.fst

/-- The defined lower-bound versions of a list of emissions, in order. -/
def lbs (es : List Emission) : List String := es.filterMap lowerBound

@[simp]
theorem lbs_nil : lbs [] = [] := rfl

@[simp]
theorem lbs_append (es es' : List Emission) : lbs (es ++ es') = lbs es ++ lbs es' := by
  simp [lbs]

@[simp]
theorem lbs_point (v : String) : lbs [Emission.point v] = [v] := rfl

@[simp]
theorem lbs_range_some (b : Bound) (en : Option Bound) :
    lbs [Emission.range (some b) en] = [b.1] := rfl

@[simp]
theorem lbs_range_none (en : Option Bound) : lbs [Emission.range none en] = [] := rfl

/-- State of the instrumented compression loop: the emissions so far and the
two pending-bound slots. -/
structure EmitState where
  emitted : List Emission
  bg : Option Bound
  en : Option Bound

/-- Instrumented version of `stepPair`: identical control flow, but recording
which emission each appended constraint string came from. -/
def stepE (st : EmitState) (p : VersionSpec) : EmitState :=
  let key := p.1
  let val := p.2
  if key = "==" then
    let st :=
      if st.bg.isSome && st.en.isSome then
        { emitted := st.emitted ++ [Emission.range st.bg st.en], bg := none, en := none }
      else st
    if st.bg.isNone then { st with emitted := st.emitted ++ [Emission.point val] }
    else st
  else if key = ">" then
    let st :=
      if st.en.isSome then
        { emitted := st.emitted ++ [Emission.range st.bg st.en], bg := none, en := none }
      else st
    if st.bg.isNone then { st with bg := some (val, false) } else st
  else if key = ">=" then
    let st :=
      if st.en.isSome then
        { emitted := st.emitted ++ [Emission.range st.bg st.en], bg := none, en := none }
      else st
    if st.bg.isNone then { st with bg := some (val, true) } else st
  else if key = "<" then
    { st with en := some (val, false) }
  else if key = "<=" then
    { st with en := some (val, true) }
  else st

theorem step_sim (es : List Emission) (bg en : Option Bound) (p : VersionSpec) :
    stepPair ⟨renderAll es, bg, en⟩ p =
      ⟨renderAll (stepE ⟨es, bg, en⟩ p).emitted, (stepE ⟨es, bg, en⟩ p).bg,
        (stepE ⟨es, bg, en⟩ p).en⟩ := by
  rcases p with ⟨key, val⟩
  by_cases h1 : key = "=="
  · rcases bg with _ | b <;> rcases en with _ | e <;>
      simp [stepPair, stepE, h1, renderAll, render]
  · by_cases h2 : key = ">"
    · rcases bg with _ | b <;> rcases en with _ | e <;>
        simp [stepPair, stepE, h1, h2, renderAll, render]
    · by_cases h3 : key = ">="
      · rcases bg with _ | b <;> rcases en with _ | e <;>
          simp [stepPair, stepE, h1, h2, h3, renderAll, render]
      · by_cases h4 : key = "<"
        · simp [stepPair, stepE, h1, h2, h3, h4]
        · by_cases h5 : key = "<="
          · simp [stepPair, stepE, h1, h2, h3, h4, h5]
          · simp [stepPair, stepE, h1, h2, h3, h4, h5]

theorem foldl_step_sim :
    ∀ (l : List VersionSpec) (es : List Emission) (bg en : Option Bound),
      l.foldl stepPair ⟨renderAll es, bg, en⟩ =
        ⟨renderAll (l.foldl stepE ⟨es, bg, en⟩).emitted,
          (l.foldl stepE ⟨es, bg, en⟩).bg, (l.foldl stepE ⟨es, bg, en⟩).en⟩ := by
  intro l
  induction l with
  | nil => intro es bg en; rfl
  | cons p rest ih =>
    intro es bg en
    rw [List.foldl_cons, List.foldl_cons, step_sim]
    exact ih (stepE ⟨es, bg, en⟩ p).emitted (stepE ⟨es, bg, en⟩ p).bg (stepE ⟨es, bg, en⟩ p).en

/-- The final state of the instrumented loop over the sorted pairs. -/
def emitRun (specs : List VersionSpec) : EmitState :=
  (List.insertionSort specLe specs).foldl stepE ⟨[], none, none⟩

/-- The emissions of a whole `compress` run: the loop's emissions followed by
the final flush of whatever bounds are still pending. -/
def emissionLog (specs : List VersionSpec) : List Emission :=
  (emitRun specs).emitted ++ [Emission.range (emitRun specs).bg (emitRun specs).en]

theorem compress_eq_renderAll (specs : List VersionSpec) :
    compress specs = renderAll (emissionLog specs) := by
  unfold compress compressLoop emissionLog emitRun
  rw [show (⟨[], none, none⟩ : CompressState) = ⟨renderAll [], none, none⟩ from rfl,
    foldl_step_sim]
  simp [render]

/-- Invariant carried through the instrumented loop while `l` is the list of
pairs still to be processed: the emitted lower bounds are sorted, they are
below every upcoming version, and a pending `begin` dominates the emitted
lower bounds while staying below every upcoming version. -/
def EmitInv (st : EmitState) (l : List VersionSpec) : Prop :=
  (lbs st.emitted).Sorted (· ≤ ·) ∧
  (∀ x ∈ lbs st.emitted, ∀ q ∈ l, x ≤ q.2) ∧
  ∀ b : Bound, st.bg = some b →
    (∀ x ∈ lbs st.emitted, x ≤ b.1) ∧ ∀ q ∈ l, b.1 ≤ q.2

theorem sorted_append_singleton {x : String} {xs : List String}
    (hs : xs.Sorted (· ≤ ·)) (hall : ∀ y ∈ xs, y ≤ x) :
    (xs ++ [x]).Sorted (· ≤ ·) := by
  rw [List.Sorted, List.pairwise_append]
  refine ⟨hs, List.pairwise_singleton _ _, ?_⟩
  intro a ha b hb
  rw [List.mem_singleton.mp hb]
  exact hall a ha

theorem sorted_append_pair {x y : String} {xs : List String}
    (hs : xs.Sorted (· ≤ ·)) (hallx : ∀ z ∈ xs, z ≤ x) (hxy : x ≤ y)
    (hally : ∀ z ∈ xs, z ≤ y) : (xs ++ [x, y]).Sorted (· ≤ ·) := by
  rw [List.Sorted, List.pairwise_append]
  refine ⟨?_, ?_, ?_⟩
  · exact hs
  · exact List.Pairwise.cons (fun z hz => (List.mem_singleton.mp hz) ▸ hxy)
      (List.pairwise_singleton _ _)
  · intro a ha b hb
    rcases List.mem_cons.mp hb with hbx | hb'
    · rw [hbx]; exact hallx a ha
    · rw [List.mem_singleton.mp hb']; exact hally a ha

theorem emitInv_step (es : List Emission) (bg en : Option Bound) (key val : String)
    (l : List VersionSpec) (hnext : ∀ q ∈ l, val ≤ q.2)
    (hinv : EmitInv ⟨es, bg, en⟩ ((key, val) :: l)) :
    EmitInv (stepE ⟨es, bg, en⟩ (key, val)) l := by
  obtain ⟨inv1, inv2, inv3⟩ := hinv
  have inv2v : ∀ x ∈ lbs es, x ≤ val := fun x hx =>
    inv2 x hx (key, val) (List.mem_cons_self _ _)
  have inv2l : ∀ x ∈ lbs es, ∀ q ∈ l, x ≤ q.2 := fun x hx q hq =>
    inv2 x hx q (List.mem_cons_of_mem _ hq)
  by_cases h1 : key = "=="
  · subst h1
    rcases bg with _ | b
    · have hst : stepE ⟨es, none, en⟩ ("==", val) =
          ⟨es ++ [Emission.point val], none, en⟩ := by
        simp [stepE]
      rw [hst]
      refine ⟨?_, ?_, ?_⟩
      · rw [show (⟨es ++ [Emission.point val], none, en⟩ : EmitState).emitted =
          es ++ [Emission.point val] from rfl, lbs_append, lbs_point]
        exact sorted_append_singleton inv1 inv2v
      · intro x hx q hq
        rw [show (⟨es ++ [Emission.point val], none, en⟩ : EmitState).emitted =
          es ++ [Emission.point val] from rfl, lbs_append, lbs_point] at hx
        rcases List.mem_append.mp hx with hx' | hx'
        · exact inv2l x hx' q hq
        · rw [List.mem_singleton.mp hx']
          exact hnext q hq
      · intro b' hb'
        simp at hb'
    · rcases en with _ | e
      · have hst : stepE ⟨es, some b, none⟩ ("==", val) = ⟨es, some b, none⟩ := by
          simp [stepE]
        rw [hst]
        refine ⟨inv1, inv2l, ?_⟩
        intro b' hb'
        obtain h := Option.some.inj hb'
        subst h
        exact ⟨(inv3 b rfl).1, fun q hq => (inv3 b rfl).2 q (List.mem_cons_of_mem _ hq)⟩
      · have hst : stepE ⟨es, some b, some e⟩ ("==", val) =
            ⟨es ++ [Emission.range (some b) (some e), Emission.point val], none, none⟩ := by
          simp [stepE]
        rw [hst]
        have hb1 : ∀ x ∈ lbs es, x ≤ b.1 := (inv3 b rfl).1
        have hbval : b.1 ≤ val := (inv3 b rfl).2 ("==", val) (List.mem_cons_self _ _)
        have hbl : ∀ q ∈ l, b.1 ≤ q.2 := fun q hq =>
          (inv3 b rfl).2 q (List.mem_cons_of_mem _ hq)
        have hlbs : lbs (es ++ [Emission.range (some b) (some e), Emission.point val]) =
            lbs es ++ [b.1, val] := by
          simp [lbs, lowerBound]
        refine ⟨?_, ?_, ?_⟩
        · rw [show (⟨es ++ [Emission.range (some b) (some e), Emission.point val], none,
            none⟩ : EmitState).emitted =
            es ++ [Emission.range (some b) (some e), Emission.point val] from rfl, hlbs]
          exact sorted_append_pair inv1 hb1 hbval inv2v
        · intro x hx q hq
          rw [show (⟨es ++ [Emission.range (some b) (some e), Emission.point val], none,
            none⟩ : EmitState).emitted =
            es ++ [Emission.range (some b) (some e), Emission.point val] from rfl, hlbs] at hx
          rcases List.mem_append.mp hx with hx' | hx'
          · exact inv2l x hx' q hq
          · rcases List.mem_cons.mp hx' with hxb | hxv
            · rw [hxb]; exact hbl q hq
            · rw [List.mem_singleton.mp hxv]; exact hnext q hq
        · intro b' hb'
          simp at hb'
  · by_cases h2 : key = ">"
    · subst h2
      rcases en with _ | e
      · rcases bg with _ | b
        · have hst : stepE ⟨es, none, none⟩ (">", val) = ⟨es, some (val, false), none⟩ := by
            simp [stepE]
          rw [hst]
          refine ⟨inv1, inv2l, ?_⟩
          intro b' hb'
          obtain h := Option.some.inj hb'
          subst h
          exact ⟨inv2v, hnext⟩
        · have hst : stepE ⟨es, some b, none⟩ (">", val) = ⟨es, some b, none⟩ := by
            simp [stepE]
          rw [hst]
          refine ⟨inv1, inv2l, ?_⟩
          intro b' hb'
          obtain h := Option.some.inj hb'
          subst h
          exact ⟨(inv3 b rfl).1, fun q hq => (inv3 b rfl).2 q (List.mem_cons_of_mem _ hq)⟩
      · rcases bg with _ | b
        · have hst : stepE ⟨es, none, some e⟩ (">", val) =
              ⟨es ++ [Emission.range none (some e)], some (val, false), none⟩ := by
            simp [stepE]
          rw [hst]
          have hlbs : lbs (es ++ [Emission.range none (some e)]) = lbs es := by
            simp [lbs, lowerBound]
          refine ⟨?_, ?_, ?_⟩
          · rw [show (⟨es ++ [Emission.range none (some e)], some (val, false), none⟩ :
              EmitState).emitted = es ++ [Emission.range none (some e)] from rfl, hlbs]
            exact inv1
          · intro x hx q hq
            rw [show (⟨es ++ [Emission.range none (some e)], some (val, false), none⟩ :
              EmitState).emitted = es ++ [Emission.range none (some e)] from rfl, hlbs] at hx
            exact inv2l x hx q hq
          · intro b' hb'
            obtain h := Option.some.inj hb'
            subst h
            constructor
            · intro x hx
              rw [show (⟨es ++ [Emission.range none (some e)], some (val, false), none⟩ :
                EmitState).emitted = es ++ [Emission.range none (some e)] from rfl, hlbs] at hx
              exact inv2v x hx
            · exact hnext
        · have hst : stepE ⟨es, some b, some e⟩ (">", val) =
              ⟨es ++ [Emission.range (some b) (some e)], some (val, false), none⟩ := by
            simp [stepE]
          rw [hst]
          have hb1 : ∀ x ∈ lbs es, x ≤ b.1 := (inv3 b rfl).1
          have hbval : b.1 ≤ val := (inv3 b rfl).2 (">", val) (List.mem_cons_self _ _)
          have hbl : ∀ q ∈ l, b.1 ≤ q.2 := fun q hq =>
            (inv3 b rfl).2 q (List.mem_cons_of_mem _ hq)
          have hlbs : lbs (es ++ [Emission.range (some b) (some e)]) = lbs es ++ [b.1] := by
            simp [lbs, lowerBound]
          refine ⟨?_, ?_, ?_⟩
          · rw [show (⟨es ++ [Emission.range (some b) (some e)], some (val, false), none⟩ :
              EmitState).emitted = es ++ [Emission.range (some b) (some e)] from rfl, hlbs]
            exact sorted_append_singleton inv1 hb1
          · intro x hx q hq
            rw [show (⟨es ++ [Emission.range (some b) (some e)], some (val, false), none⟩ :
              EmitState).emitted = es ++ [Emission.range (some b) (some e)] from rfl, hlbs] at hx
            rcases List.mem_append.mp hx with hx' | hx'
            · exact inv2l x hx' q hq
            · rw [List.mem_singleton.mp hx']; exact hbl q hq
          · intro b' hb'
            obtain h := Option.some.inj hb'
            subst h
            constructor
            · intro x hx
              rw [show (⟨es ++ [Emission.range (some b) (some e)], some (val, false), none⟩ :
                EmitState).emitted = es ++ [Emission.range (some b) (some e)] from rfl,
                hlbs] at hx
              rcases List.mem_append.mp hx with hx' | hx'
              · exact inv2v x hx'
              · rw [List.mem_singleton.mp hx']; exact hbval
            · exact hnext
    · by_cases h3 : key = ">="
      · subst h3
        rcases en with _ | e
        · rcases bg with _ | b
          · have hst : stepE ⟨es, none, none⟩ (">=", val) =
                ⟨es, some (val, true), none⟩ := by
              simp [stepE]
            rw [hst]
            refine ⟨inv1, inv2l, ?_⟩
            intro b' hb'
            obtain h := Option.some.inj hb'
            subst h
            exact ⟨inv2v, hnext⟩
          · have hst : stepE ⟨es, some b, none⟩ (">=", val) = ⟨es, some b, none⟩ := by
              simp [stepE]
            rw [hst]
            refine ⟨inv1, inv2l, ?_⟩
            intro b' hb'
            obtain h := Option.some.inj hb'
            subst h
            exact ⟨(inv3 b rfl).1, fun q hq => (inv3 b rfl).2 q (List.mem_cons_of_mem _ hq)⟩
        · rcases bg with _ | b
          · have hst : stepE ⟨es, none, some e⟩ (">=", val) =
                ⟨es ++ [Emission.range none (some e)], some (val, true), none⟩ := by
              simp [stepE]
            rw [hst]
            have hlbs : lbs (es ++ [Emission.range none (some e)]) = lbs es := by
              simp [lbs, lowerBound]
            refine ⟨?_, ?_, ?_⟩
            · rw [show (⟨es ++ [Emission.range none (some e)], some (val, true), none⟩ :
                EmitState).emitted = es ++ [Emission.range none (some e)] from rfl, hlbs]
              exact inv1
            · intro x hx q hq
              rw [show (⟨es ++ [Emission.range none (some e)], some (val, true), none⟩ :
                EmitState).emitted = es ++ [Emission.range none (some e)] from rfl, hlbs] at hx
              exact inv2l x hx q hq
            · intro b' hb'
              obtain h := Option.some.inj hb'
              subst h
              constructor
              · intro x hx
                rw [show (⟨es ++ [Emission.range none (some e)], some (val, true), none⟩ :
                  EmitState).emitted = es ++ [Emission.range none (some e)] from rfl,
                  hlbs] at hx
                exact inv2v x hx
              · exact hnext
          · have hst : stepE ⟨es, some b, some e⟩ (">=", val) =
                ⟨es ++ [Emission.range (some b) (some e)], some (val, true), none⟩ := by
              simp [stepE]
            rw [hst]
            have hb1 : ∀ x ∈ lbs es, x ≤ b.1 := (inv3 b rfl).1
            have hbval : b.1 ≤ val := (inv3 b rfl).2 (">=", val) (List.mem_cons_self _ _)
            have hbl : ∀ q ∈ l, b.1 ≤ q.2 := fun q hq =>
              (inv3 b rfl).2 q (List.mem_cons_of_mem _ hq)
            have hlbs : lbs (es ++ [Emission.range (some b) (some e)]) =
                lbs es ++ [b.1] := by
              simp [lbs, lowerBound]
            refine ⟨?_, ?_, ?_⟩
            · rw [show (⟨es ++ [Emission.range (some b) (some e)], some (val, true), none⟩ :
                EmitState).emitted = es ++ [Emission.range (some b) (some e)] from rfl, hlbs]
              exact sorted_append_singleton inv1 hb1
            · intro x hx q hq
              rw [show (⟨es ++ [Emission.range (some b) (some e)], some (val, true), none⟩ :
                EmitState).emitted = es ++ [Emission.range (some b) (some e)] from rfl,
                hlbs] at hx
              rcases List.mem_append.mp hx with hx' | hx'
              · exact inv2l x hx' q hq
              · rw [List.mem_singleton.mp hx']; exact hbl q hq
            · intro b' hb'
              obtain h := Option.some.inj hb'
              subst h
              constructor
              · intro x hx
                rw [show (⟨es ++ [Emission.range (some b) (some e)], some (val, true),
                  none⟩ : EmitState).emitted = es ++ [Emission.range (some b) (some e)]
                  from rfl, hlbs] at hx
                rcases List.mem_append.mp hx with hx' | hx'
                · exact inv2v x hx'
                · rw [List.mem_singleton.mp hx']; exact hbval
              · exact hnext
      · by_cases h4 : key = "<"
        · subst h4
          have hst : stepE ⟨es, bg, en⟩ ("<", val) = ⟨es, bg, some (val, false)⟩ := by
            simp [stepE]
          rw [hst]
          refine ⟨inv1, inv2l, ?_⟩
          intro b' hb'
          exact ⟨(inv3 b' hb').1, fun q hq => (inv3 b' hb').2 q (List.mem_cons_of_mem _ hq)⟩
        · by_cases h5 : key = "<="
          · subst h5
            have hst : stepE ⟨es, bg, en⟩ ("<=", val) = ⟨es, bg, some (val, true)⟩ := by
              simp [stepE]
            rw [hst]
            refine ⟨inv1, inv2l, ?_⟩
            intro b' hb'
            exact ⟨(inv3 b' hb').1, fun q hq =>
              (inv3 b' hb').2 q (List.mem_cons_of_mem _ hq)⟩
          · have hst : stepE ⟨es, bg, en⟩ (key, val) = ⟨es, bg, en⟩ := by
              simp [stepE, h1, h2, h3, h4, h5]
            rw [hst]
            refine ⟨inv1, inv2l, ?_⟩
            intro b' hb'
            exact ⟨(inv3 b' hb').1, fun q hq =>
              (inv3 b' hb').2 q (List.mem_cons_of_mem _ hq)⟩

theorem emitInv_foldl :
    ∀ (l : List VersionSpec) (st : EmitState), l.Sorted specLe → EmitInv st l →
      EmitInv (l.foldl stepE st) [] := by
  intro l
  induction l with
  | nil => intro st _ h; exact h
  | cons p rest ih =>
    intro st hs hinv
    rw [List.foldl_cons]
    refine ih (stepE st p) hs.of_cons ?_
    rcases st with ⟨es, bg, en⟩
    rcases p with ⟨key, val⟩
    exact emitInv_step es bg en key val rest
      (fun q hq => List.rel_of_sorted_cons hs q hq) hinv

theorem lbs_emissionLog_sorted (specs : List VersionSpec) :
    (lbs (emissionLog specs)).Sorted (· ≤ ·) := by
  have hinv : EmitInv (emitRun specs) [] := by
    refine emitInv_foldl _ _ (List.sorted_insertionSort specLe specs) ?_
    refine ⟨List.sorted_nil, ?_, ?_⟩
    · intro x hx
      simp [lbs] at hx
    · intro b hb
      simp at hb
  obtain ⟨h1, _, h3⟩ := hinv
  unfold emissionLog
  rcases hbg : (emitRun specs).bg with _ | b
  · rw [lbs_append, lbs_range_none]
    simpa using h1
  · rw [lbs_append, lbs_range_some]
    exact sorted_append_singleton h1 ((h3 b hbg).1)

/-- Modelled from the spec: the splitting of a version string at the dots,
needed only to state semantic-version precedence, which the source delegates
to an external packaging library. -/
def dotSplit : List Char → List (List Char)
  | [] => [[]]
  | c :: cs =>
    if c = '.' then [] :: dotSplit cs
    else
      match dotSplit cs with
      | [] => [[c]]
      | g :: gs => (c :: g) :: gs

/-- Numeric value of a digit group (base 10, code points). -/
def digitsVal (cs : List Char) : Nat := cs.foldl (fun acc c => acc * 10 + (c.toNat - 48)) 0

/-- Modelled from the spec: "parse dotted numeric ... components". -/
def semverParts (v : String) : List Nat := (dotSplit v.data).map digitsVal

/-- Lexicographic comparison of numeric component lists. -/
def natListLt : List Nat → List Nat → Bool
  | _, [] => false
  | [], _ :: _ => true
  | a :: as, b :: bs => if a < b then true else if b < a then false else natListLt as bs

/-- Modelled from the spec: semantic-version precedence — "compare
component-wise" the dotted numeric components. -/
def semverLt (a b : String) : Bool := natListLt (semverParts a) (semverParts b)

/-- C1, counterexample to the claim as stated: with versions `2.0.0` and
`10.0.0`, the pairs are processed in lexicographic string order (`"10.0.0" <
"2.0.0"`), so the output points appear in *descending* semantic-version
order: `2.0.0` precedes `10.0.0` semantically, yet `[10.0.0]` is emitted
first. -/
theorem c1_counterexample :
    compress [("==", "2.0.0"), ("==", "10.0.0")] = ["[10.0.0]", "[2.0.0]"] ∧
    lbs (emissionLog [("==", "2.0.0"), ("==", "10.0.0")]) = ["10.0.0", "2.0.0"] ∧
    semverLt "2.0.0" "10.0.0" = true ∧
    pyLt "10.0.0" "2.0.0" = true :=
  ⟨by decide, by decide, by decide, by decide⟩

/-- C1, amended: the compressor processes the pairs sorted by lexicographic
order of the raw version string (Python string comparison — not semantic
version precedence), and the resulting interval expressions appear in the
order flushed, with the defined lower-bound versions ascending in that
lexicographic string order. -/
theorem c1_lexicographic_processing (specs : List VersionSpec) :
    (List.insertionSort specLe specs).Perm specs ∧
    (List.insertionSort specLe specs).Sorted specLe ∧
    compress specs = renderAll (emissionLog specs) ∧
    (lbs (emissionLog specs)).Sorted (· ≤ ·) :=
  ⟨List.perm_insertionSort specLe specs, List.sorted_insertionSort specLe specs,
    compress_eq_renderAll specs, lbs_emissionLog_sorted specs⟩

/-- Python truthiness of an optional string field: a missing field and the
empty string are falsy (`not r.get(..., None)`). -/
def truthy (s : Option String) : Option String :=
  match s with
  | none => none
  | some v => if v = "" then none else some v

/-- One sub-release record of a Release; `upload_time` is `none` when the
field is missing. -/
structure SubRelease where
  upload_time : Option String
deriving DecidableEq, Repr

/-- One Release group; `version` is `none` when the key is missing, and a
missing or `None` `releases` value is embedded as the empty list — the code
only tests the field for falsiness and then iterates it, which does not
distinguish the three. -/
structure Release where
  version : Option String
  releases : List SubRelease
deriving DecidableEq, Repr

/-- A top-level package record; each field is `none` when the corresponding
nested key is missing (the `KeyError` path of `_extract`); `requires_dist`
carries the raw requirement strings in already-split `(name, specs)` form as
produced by the external `Requirement.parse`. -/
structure PackageRecord where
  name : Option String
  requires_dist : Option (List (String × List VersionSpec))
  releases : Option (List Release)

/-- A normalized entry as yielded by `_extract`. -/
structure Entry where
  product : String
  version : String
  version_timestamp : Int
  requires_dist : List DependencyConstraint
deriving DecidableEq, Repr

/-- The inner loop of `_extract` that computes the smallest timestamp: `ts`
starts at infinity (embedded as `none`), sub-releases with a falsy
`upload_time` are skipped, and a present `upload_time` is parsed by
`dateutil.parser.isoparse(...)` — embedded as the oracle `pt`, where
`pt s = none` means `isoparse` raises, in which case the exception
propagates out of the generator (`Except.error`). -/
def minTimestamp (pt : String → Option Int) :
    Option Int → List SubRelease → Except Unit (Option Int)
  | ts, [] => Except.ok ts
  | ts, r :: rest =>
    match truthy r.upload_time with
    | none => minTimestamp pt ts rest
    | some s =>
      match pt s with
      | none => Except.error ()
      | some candts =>
        minTimestamp pt
          (some (match ts with
            | none => candts
            | some t => if candts < t then candts else t)) rest

/-- The parsed timestamps of the sub-releases whose `upload_time` is present
(truthy) and parses under the oracle `pt`. -/
def validStamps (pt : String → Option Int) (subs : List SubRelease) : List Int :=
  subs.filterMap fun r => (truthy r.upload_time).bind pt

theorem minTimestamp_ok_some (pt : String → Option Int) :
    ∀ (subs : List SubRelease) (acc : Option Int) (m : Int),
      minTimestamp pt acc subs = Except.ok (some m) →
      m ∈ acc.toList ++ validStamps pt subs ∧
        ∀ c ∈ acc.toList ++ validStamps pt subs, m ≤ c := by
  intro subs
  induction subs with
  | nil =>
    intro acc m h
    simp only [minTimestamp, Except.ok.injEq] at h
    subst h
    constructor
    · simp [validStamps, Option.toList]
    · intro c hc
      simp [validStamps, Option.toList] at hc
      rw [hc]
  | cons r rest ih =>
    intro acc m h
    cases htr : truthy r.upload_time with
    | none =>
      simp only [minTimestamp, htr] at h
      have hv : validStamps pt (r :: rest) = validStamps pt rest := by
        simp [validStamps, List.filterMap_cons, htr]
      rw [hv]
      exact ih acc m h
    | some s =>
      cases hpt : pt s with
      | none => simp [minTimestamp, htr, hpt] at h
      | some candts =>
        have hv : validStamps pt (r :: rest) = candts :: validStamps pt rest := by
          simp [validStamps, List.filterMap_cons, htr, hpt]
        rw [hv]
        cases acc with
        | none =>
          simp only [minTimestamp, htr, hpt] at h
          obtain ⟨hm, hb⟩ := ih (some candts) m h
          constructor
          · exact hm
          · intro c hc
            exact hb c hc
        | some t =>
          simp only [minTimestamp, htr, hpt] at h
          by_cases hct : candts < t
          · rw [if_pos hct] at h
            obtain ⟨hm, hb⟩ := ih (some candts) m h
            have hmc : m = candts ∨ m ∈ validStamps pt rest := List.mem_cons.mp hm
            have hle : m ≤ candts := hb candts (List.mem_cons_self _ _)
            constructor
            · rcases hmc with hmc | hmc
              · exact List.mem_cons_of_mem _ (hmc ▸ List.mem_cons_self _ _)
              · exact List.mem_cons_of_mem _ (List.mem_cons_of_mem _ hmc)
            · intro c hc
              rcases List.mem_cons.mp hc with hc' | hc'
              · rw [hc']
                exact le_trans hle (le_of_lt hct)
              · rcases List.mem_cons.mp hc' with hc'' | hc''
                · rw [hc'']
                  exact hle
                · exact hb c (List.mem_cons_of_mem _ hc'')
          · rw [if_neg hct] at h
            obtain ⟨hm, hb⟩ := ih (some t) m h
            have hmc : m = t ∨ m ∈ validStamps pt rest := List.mem_cons.mp hm
            have hle : m ≤ t := hb t (List.mem_cons_self _ _)
            constructor
            · rcases hmc with hmc | hmc
              · exact hmc ▸ List.mem_cons_self _ _
              · exact List.mem_cons_of_mem _ (List.mem_cons_of_mem _ hmc)
            · intro c hc
              rcases List.mem_cons.mp hc with hc' | hc'
              · rw [hc']
                exact hle
              · rcases List.mem_cons.mp hc' with hc'' | hc''
                · rw [hc'']
                  exact le_trans hle (not_lt.mp hct)
                · exact hb c (List.mem_cons_of_mem _ hc'')

/-- The per-release loop of `_extract`: skip a Release whose `version` or
`releases` is falsy, skip it when no sub-release produced a timestamp
(`ts == float("inf")`), and otherwise yield the normalized entry. -/
def extractLoop (pt : String → Option Int) (pkgName : String)
    (rd : List DependencyConstraint) : List Release → Except Unit (List Entry)
  | [] => Except.ok []
  | rel :: rest =>
    match truthy rel.version with
    | none => extractLoop pt pkgName rd rest
    | some v =>
      if rel.releases.isEmpty then extractLoop pt pkgName rd rest
      else
        match minTimestamp pt none rel.releases with
        | Except.error err => Except.error err
        | Except.ok none => extractLoop pt pkgName rd rest
        | Except.ok (some ts) =>
          match extractLoop pt pkgName rd rest with
          | Except.error err => Except.error err
          | Except.ok tail => Except.ok (⟨pkgName, v, ts, rd⟩ :: tail)

/-- Embedding of `_extract`: fail soft (yield nothing) when any of
`project.info.name`, `project.info.requires_dist` or `project.releases` is
missing; otherwise compress the requirements once and run the per-release
loop. -/
def extract (pt : String → Option Int) (pkg : PackageRecord) : Except Unit (List Entry) :=
  match pkg.name, pkg.requires_dist, pkg.releases with
  | some n, some rd, some rels => extractLoop pt n (parseRequires rd) rels
  | _, _, _ => Except.ok []

/-- C9: a record missing `project.info.name`, `project.info.requires_dist`
or `project.releases` yields the empty sequence and does not raise. -/
theorem c9_malformed_record_soft (pt : String → Option Int) (pkg : PackageRecord)
    (h : pkg.name = none ∨ pkg.requires_dist = none ∨ pkg.releases = none) :
    extract pt pkg = Except.ok [] := by
  rcases pkg with ⟨name, rd, rels⟩
  rcases name with _ | n
  · simp [extract]
  · rcases rd with _ | rd'
    · simp [extract]
    · rcases rels with _ | rels'
      · simp [extract]
      · rcases h with h | h | h <;> simp at h

theorem c9_witness :
    extract (fun _ => none) ⟨none, some [], some []⟩ = Except.ok [] :=
  c9_malformed_record_soft (fun _ => none) ⟨none, some [], some []⟩ (Or.inl rfl)

theorem extractLoop_ok_min (pt : String → Option Int) (pkgName : String)
    (rd : List DependencyConstraint) :
    ∀ (rels : List Release) (entries : List Entry),
      extractLoop pt pkgName rd rels = Except.ok entries →
      ∀ e ∈ entries, ∃ rel ∈ rels, truthy rel.version = some e.version ∧
        e.version_timestamp ∈ validStamps pt rel.releases ∧
        ∀ c ∈ validStamps pt rel.releases, e.version_timestamp ≤ c := by
  intro rels
  induction rels with
  | nil =>
    intro entries h e he
    simp only [extractLoop, Except.ok.injEq] at h
    subst h
    simp at he
  | cons rel rest ih =>
    intro entries h e he
    cases htv : truthy rel.version with
    | none =>
      simp only [extractLoop, htv] at h
      obtain ⟨rel', hmem, hrest⟩ := ih entries h e he
      exact ⟨rel', List.mem_cons_of_mem _ hmem, hrest⟩
    | some v =>
      simp only [extractLoop, htv] at h
      by_cases hemp : rel.releases.isEmpty
      · rw [if_pos hemp] at h
        obtain ⟨rel', hmem, hrest⟩ := ih entries h e he
        exact ⟨rel', List.mem_cons_of_mem _ hmem, hrest⟩
      · rw [if_neg hemp] at h
        cases hmt : minTimestamp pt none rel.releases with
        | error err =>
          rw [hmt] at h
          exact Except.noConfusion h
        | ok mo =>
          rw [hmt] at h
          cases mo with
          | none =>
            obtain ⟨rel', hmem, hrest⟩ := ih entries h e he
            exact ⟨rel', List.mem_cons_of_mem _ hmem, hrest⟩
          | some ts =>
            cases hrec : extractLoop pt pkgName rd rest with
            | error err =>
              rw [hrec] at h
              exact Except.noConfusion h
            | ok tail =>
              rw [hrec] at h
              have hE : (⟨pkgName, v, ts, rd⟩ : Entry) :: tail = entries := by
                injection h
              subst hE
              rcases List.mem_cons.mp he with he' | he'
              · subst he'
                obtain ⟨hm, hb⟩ := minTimestamp_ok_some pt rel.releases none ts hmt
                refine ⟨rel, List.mem_cons_self _ _, htv, hm, ?_⟩
                intro c hc
                exact hb c hc
              · obtain ⟨rel', hmem, hrest⟩ := ih tail hrec e he'
                exact ⟨rel', List.mem_cons_of_mem _ hmem, hrest⟩

/-- C6, counterexample to the claim as stated: a sub-release with a present
but unparseable `upload_time` is not "not considered" — `isoparse` raises
and the exception propagates out of `_extract`, so the Release is not
skipped and the extraction aborts instead of yielding the empty sequence. -/
theorem c6_counterexample :
    extract (fun _ => (none : Option Int))
      ⟨some "foo", some [], some [⟨some "1.0.0", [⟨some "garbage"⟩]⟩]⟩ =
        Except.error () ∧
    (Except.error () : Except Unit (List Entry)) ≠ Except.ok [] :=
  ⟨rfl, fun h => Except.noConfusion h⟩

/-- C6, amended: over the sub-releases with a present (truthy) `upload_time`
— each of which must parse, an unparseable one aborting the extraction with
an error instead of being skipped — every entry of a successful extraction
carries as `version_timestamp` the minimum of the parsed integer timestamps
of its Release, that Release has at least one valid timestamp, and no entry
is yielded with a sentinel value. -/
theorem c6_version_timestamp_min (pt : String → Option Int) (pkg : PackageRecord)
    (entries : List Entry) (h : extract pt pkg = Except.ok entries) :
    ∀ e ∈ entries, ∃ rels, pkg.releases = some rels ∧
      ∃ rel ∈ rels, truthy rel.version = some e.version ∧
        e.version_timestamp ∈ validStamps pt rel.releases ∧
        ∀ c ∈ validStamps pt rel.releases, e.version_timestamp ≤ c := by
  intro e he
  rcases pkg with ⟨name, rd, rels⟩
  rcases name with _ | n
  · simp only [extract, Except.ok.injEq] at h
    subst h
    simp at he
  · rcases rd with _ | rd'
    · simp only [extract, Except.ok.injEq] at h
      subst h
      simp at he
    · rcases rels with _ | rels'
      · simp only [extract, Except.ok.injEq] at h
        subst h
        simp at he
      · simp only [extract] at h
        exact ⟨rels', rfl, extractLoop_ok_min pt n (parseRequires rd') rels' entries h e he⟩

theorem c6_witness :
    ∃ rels,
      (⟨some "foo", some [], some [⟨some "1.0.0", [⟨some "t"⟩]⟩]⟩ :
        PackageRecord).releases = some rels ∧
      ∃ rel ∈ rels,
        truthy rel.version = some (Entry.mk "foo" "1.0.0" 5 []).version ∧
        (Entry.mk "foo" "1.0.0" 5 []).version_timestamp ∈
          validStamps (fun _ => some 5) rel.releases ∧
        ∀ c ∈ validStamps (fun _ => some 5) rel.releases,
          (Entry.mk "foo" "1.0.0" 5 []).version_timestamp ≤ c :=
  c6_version_timestamp_min (fun _ => some 5)
    ⟨some "foo", some [], some [⟨some "1.0.0", [⟨some "t"⟩]⟩]⟩
    [⟨"foo", "1.0.0", 5, []⟩] rfl ⟨"foo", "1.0.0", 5, []⟩ (List.mem_singleton.mpr rfl)

/-- The in-memory deduplication map `self.packages`: an association list from
product name to the list of already-seen versions, kept duplicate-free like a
Python `set`. -/
abbrev DedupStore := List (String × List String)

/-- Association lookup of a product's version set. -/
def storeLookup : DedupStore → String → Option (List String)
  | [], _ => none
  | (q, vs) :: rest, product => if q = product then some vs else storeLookup rest product

/-- Embedding of `_exists`: false when the product is unknown, otherwise
membership of the version in the product's set. -/
def storeExists (s : DedupStore) (product version : String) : Bool :=
  match storeLookup s product with
  | none => false
  | some vs => decide (version ∈ vs)

/-- Embedding of `_store`: create the product's (empty) set when missing,
then add the version; a set stores each element at most once. -/
def storeAdd : DedupStore → String → String → DedupStore
  | [], product, version => [(product, [version])]
  | (q, vs) :: rest, product, version =>
    if q = product then (q, if version ∈ vs then vs else vs ++ [version]) :: rest
    else (q, vs) :: storeAdd rest product version

/-- The version lists of a well-formed store are duplicate-free, as Python
sets are. -/
def StoreWF (s : DedupStore) : Prop := ∀ pr ∈ s, pr.2.Nodup

/-- The body of `consume` over the entries extracted from one record:
forward an entry only when it is not already in the store, storing it
first. -/
def processEntries (s : DedupStore) : List Entry → DedupStore × List Entry
  | [] => (s, [])
  | e :: rest =>
    if storeExists s e.product e.version then processEntries s rest
    else
      let t := processEntries (storeAdd s e.product e.version) rest
      (t.1, e :: t.2)

theorem storeLookup_storeAdd_self (v : String) :
    ∀ (s : DedupStore) (p : String),
      storeLookup (storeAdd s p v) p =
        some (match storeLookup s p with
          | none => [v]
          | some vs => if v ∈ vs then vs else vs ++ [v]) := by
  intro s
  induction s with
  | nil =>
    intro p
    simp [storeAdd, storeLookup]
  | cons pr rest ih =>
    intro p
    rcases pr with ⟨q, vs⟩
    by_cases hq : q = p
    · simp only [storeAdd, storeLookup, if_pos hq]
    · simp only [storeAdd, storeLookup, if_neg hq]
      exact ih p

theorem storeExists_storeAdd_self (s : DedupStore) (p v : String) :
    storeExists (storeAdd s p v) p v = true := by
  rw [storeExists, storeLookup_storeAdd_self]
  cases hl : storeLookup s p with
  | none => simp
  | some vs =>
    by_cases hv : v ∈ vs
    · simp [hv]
    · simp [hv]

theorem storeExists_mono (p v : String) :
    ∀ (s : DedupStore) (p' v' : String), storeExists s p' v' = true →
      storeExists (storeAdd s p v) p' v' = true := by
  intro s
  induction s with
  | nil =>
    intro p' v' h
    simp [storeExists, storeLookup] at h
  | cons pr rest ih =>
    intro p' v' h
    rcases pr with ⟨q, vs⟩
    by_cases hq : q = p
    · by_cases hq' : q = p'
      · rw [storeExists, storeLookup] at h
        rw [if_pos hq'] at h
        rw [storeExists, storeAdd, if_pos hq, storeLookup, if_pos hq']
        by_cases hv : v ∈ vs
        · rw [if_pos hv]
          exact h
        · rw [if_neg hv]
          simp only [Option.some.injEq] at h ⊢
          simp only [decide_eq_true_eq] at h ⊢
          exact List.mem_append_left _ h
      · rw [storeExists, storeLookup, if_neg hq'] at h
        rw [storeExists, storeAdd, if_pos hq, storeLookup, if_neg hq']
        exact h
    · by_cases hq' : q = p'
      · rw [storeExists, storeLookup, if_pos hq'] at h
        rw [storeExists, storeAdd, if_neg hq, storeLookup, if_pos hq']
        exact h
      · rw [storeExists, storeLookup, if_neg hq'] at h
        rw [storeExists, storeAdd, if_neg hq, storeLookup, if_neg hq']
        exact ih p' v' h

theorem storeWF_of_add (v : String) :
    ∀ (s : DedupStore) (p : String), StoreWF s → StoreWF (storeAdd s p v) := by
  intro s
  induction s with
  | nil =>
    intro p _
    intro pr hpr
    simp only [storeAdd, List.mem_singleton] at hpr
    subst hpr
    exact List.nodup_singleton v
  | cons hd rest ih =>
    intro p hwf
    rcases hd with ⟨q, vs⟩
    have hvs : vs.Nodup := hwf (q, vs) (List.mem_cons_self _ _)
    have hrest : StoreWF rest := fun pr hpr => hwf pr (List.mem_cons_of_mem _ hpr)
    by_cases hq : q = p
    · rw [StoreWF]
      intro pr hpr
      rw [storeAdd, if_pos hq] at hpr
      rcases List.mem_cons.mp hpr with hpr' | hpr'
      · subst hpr'
        by_cases hv : v ∈ vs
        · simpa [hv] using hvs
        · simp only [if_neg hv]
          exact List.Nodup.append hvs (List.nodup_singleton v)
            (List.disjoint_singleton.mpr hv)
      · exact hrest pr hpr'
    · rw [StoreWF]
      intro pr hpr
      rw [storeAdd, if_neg hq] at hpr
      rcases List.mem_cons.mp hpr with hpr' | hpr'
      · subst hpr'
        exact hvs
      · exact ih p hrest pr hpr'

theorem storeLookup_mem :
    ∀ (s : DedupStore) (p : String) (vs : List String),
      storeLookup s p = some vs → ∃ q, (q, vs) ∈ s := by
  intro s
  induction s with
  | nil =>
    intro p vs h
    simp [storeLookup] at h
  | cons pr rest ih =>
    intro p vs h
    rcases pr with ⟨q, vs'⟩
    by_cases hq : q = p
    · rw [storeLookup, if_pos hq] at h
      obtain h := Option.some.inj h
      subst h
      exact ⟨q, List.mem_cons_self _ _⟩
    · rw [storeLookup, if_neg hq] at h
      obtain ⟨q', hq'⟩ := ih p vs h
      exact ⟨q', List.mem_cons_of_mem _ hq'⟩

/-- C7: the deduplication store is idempotent and suppressing — storing an
entry twice leaves `exists` true with exactly one occurrence of the version
in the product's set, `exists` holds exactly when the product is known and
the version is in its set, and once a (product, version) pair is in the
store the processing loop never forwards an entry for it again. -/
theorem c7_dedup_idempotent_suppressing :
    (∀ (s : DedupStore) (e : Entry),
        storeExists (storeAdd (storeAdd s e.product e.version) e.product e.version)
          e.product e.version = true) ∧
    (∀ (s : DedupStore) (e : Entry), StoreWF s →
        List.count e.version
          ((storeLookup (storeAdd (storeAdd s e.product e.version) e.product e.version)
            e.product).getD []) = 1) ∧
    (∀ (s : DedupStore) (p v : String),
        storeExists s p v = true ↔ ∃ vs, storeLookup s p = some vs ∧ v ∈ vs) ∧
    (∀ (s : DedupStore) (l : List Entry) (p v : String), storeExists s p v = true →
        ∀ e' ∈ (processEntries s l).2, ¬(e'.product = p ∧ e'.version = v)) := by
  refine ⟨?_, ?_, ?_, ?_⟩
  · intro s e
    exact storeExists_storeAdd_self (storeAdd s e.product e.version) e.product e.version
  · intro s e hwf
    cases hl : storeLookup s e.product with
    | none =>
      have h1 := storeLookup_storeAdd_self e.version s e.product
      rw [hl] at h1
      have h2 := storeLookup_storeAdd_self e.version (storeAdd s e.product e.version)
        e.product
      rw [h1] at h2
      simp only [List.mem_singleton, if_pos rfl] at h2
      rw [h2]
      simp
    | some vs =>
      obtain ⟨q, hqmem⟩ := storeLookup_mem s e.product vs hl
      have hvs : vs.Nodup := hwf (q, vs) hqmem
      have h1 := storeLookup_storeAdd_self e.version s e.product
      rw [hl] at h1
      by_cases hv : e.version ∈ vs
      · simp only [hv, if_true] at h1
        have h2 := storeLookup_storeAdd_self e.version (storeAdd s e.product e.version)
          e.product
        rw [h1] at h2
        simp only [hv, if_true] at h2
        rw [h2]
        simp only [Option.getD_some]
        refine le_antisymm (List.nodup_iff_count_le_one.mp hvs _) ?_
        exact List.count_pos_iff.mpr hv
      · simp only [hv, if_false] at h1
        have h2 := storeLookup_storeAdd_self e.version (storeAdd s e.product e.version)
          e.product
        have hv2 : e.version ∈ vs ++ [e.version] :=
          List.mem_append_right _ (List.mem_singleton.mpr rfl)
        rw [h1] at h2
        simp only [hv2, if_true] at h2
        rw [h2]
        simp only [Option.getD_some]
        rw [List.count_append, List.count_eq_zero_of_not_mem hv]
        simp
  · intro s p v
    constructor
    · intro h
      rw [storeExists] at h
      cases hl : storeLookup s p with
      | none =>
        rw [hl] at h
        exact Bool.noConfusion h
      | some vs =>
        rw [hl] at h
        exact ⟨vs, rfl, of_decide_eq_true h⟩
    · rintro ⟨vs, hl, hv⟩
      rw [storeExists, hl]
      exact decide_eq_true hv
  · intro s l
    induction l generalizing s with
    | nil =>
      intro p v h e' he'
      simp [processEntries] at he'
    | cons e rest ih =>
      intro p v h e' he'
      by_cases hex : storeExists s e.product e.version = true
      · simp only [processEntries, if_pos hex] at he'
        exact ih s p v h e' he'
      · simp only [processEntries, if_neg hex] at he'
        rcases List.mem_cons.mp he' with he'' | he''
        · subst he''
          rintro ⟨hp, hv⟩
          rw [hp, hv] at hex
          exact hex h
        · exact ih (storeAdd s e.product e.version) p v
            (storeExists_mono e.product e.version s p v h) e' he''

theorem c7_witness :
    storeExists (storeAdd (storeAdd [] "foo" "1.0.0") "foo" "1.0.0") "foo" "1.0.0" = true ∧
    List.count "1.0.0"
      ((storeLookup (storeAdd (storeAdd [] "foo" "1.0.0") "foo" "1.0.0") "foo").getD []) = 1 ∧
    (storeExists [("foo", ["1.0.0"])] "foo" "1.0.0" = true ↔
      ∃ vs, storeLookup [("foo", ["1.0.0"])] "foo" = some vs ∧ "1.0.0" ∈ vs) ∧
    ∀ e' ∈ (processEntries [("foo", ["1.0.0"])]
        [Entry.mk "foo" "1.0.0" 5 []]).2,
      ¬(e'.product = "foo" ∧ e'.version = "1.0.0") :=
  ⟨c7_dedup_idempotent_suppressing.1 [] (Entry.mk "foo" "1.0.0" 5 []),
    c7_dedup_idempotent_suppressing.2.1 [] (Entry.mk "foo" "1.0.0" 5 [])
      (fun pr hpr => absurd hpr (List.not_mem_nil pr)),
    c7_dedup_idempotent_suppressing.2.2.1 [("foo", ["1.0.0"])] "foo" "1.0.0",
    c7_dedup_idempotent_suppressing.2.2.2 [("foo", ["1.0.0"])]
      [Entry.mk "foo" "1.0.0" 5 []] "foo" "1.0.0" (by decide)⟩
